import Mathlib

/-!
A verification development for the libzet core: the Zettel data model
(`libzet/Zettel.py`), the attribute map (`libzet/Attributes.py`) and the
multi-document pack/unpack layer (`libzet/parsing.py`).

Text is embedded as `List Char`; the Python string operations used by the
source (`strip`, `split`, `splitlines`, `join`, `lower`, whitespace split,
slicing) are defined below with Python's semantics.  The two external
services the core consumes (the `superdate` date parser and the `yaml`
structured-data codec, both declared external interfaces by the design)
are parameters of the embedding, collected in the `ExtSvc` structure;
theorems that depend on their behaviour take that behaviour as explicit
hypotheses, matching the contracts the design states for them.
-/

/-- Text of the embedded program: a Python `str` as a list of characters. -/
abbrev Text : Type := List Char

/-- Shorthand to write embedded text with string literals. -/
def txt (s : String) : Text := s.toList

/-- The characters CPython's `str.strip()`/`str.split()` (no argument)
treat as whitespace: the `Py_UNICODE_ISSPACE` set — `\t\n\v\f\r`, the
information separators `\x1c`–`\x1f`, space, NEL, NBSP, OGHAM SPACE
MARK, the ` `–` ` spaces, LINE/PARAGRAPH SEPARATOR, NARROW
NBSP, MEDIUM MATHEMATICAL SPACE and IDEOGRAPHIC SPACE. -/
def pyWs : List Char := [' ', '\t', '\n', '\r', '\x0b', '\x0c',
  '\x1c', '\x1d', '\x1e', '\x1f', '\u0085', ' ', ' ',
  ' ', ' ', ' ', ' ', ' ', ' ', ' ',
  ' ', ' ', ' ', ' ', ' ', ' ', ' ',
  ' ', '　']

/-- Whether a character is Python whitespace. -/
def isWsC (c : Char) : Bool := pyWs.contains c

/-- The characters CPython's `str.splitlines()` treats as line
boundaries: `\n`, `\r`, `\v`, `\f`, the separators `\x1c`–`\x1e`, NEL,
LINE SEPARATOR and PARAGRAPH SEPARATOR (`\r\n` counts as a single
boundary). -/
def pyLineBoundary (c : Char) : Bool :=
  c = '\n' || c = '\r' || c = '\x0b' || c = '\x0c' ||
  c = '\x1c' || c = '\x1d' || c = '\x1e' ||
  c = '\u0085' || c = ' ' || c = ' '

/-- Python `str.lstrip()`. -/
def lstripT (t : Text) : Text := t.dropWhile isWsC

/-- Python `str.rstrip()`. -/
def rstripT (t : Text) : Text := (lstripT t.reverse).reverse

/-- Python `str.strip()`. -/
def stripT (t : Text) : Text := lstripT (rstripT t)

/-- `startsWithT p t`: Python `t.startswith(p)`. -/
def startsWithT : Text → Text → Bool
  | [], _ => true
  | _ :: _, [] => false
  | p :: ps, c :: cs => p == c && startsWithT ps cs

/-- `endsWithT p t`: Python `t.endswith(p)`. -/
def endsWithT (p t : Text) : Bool := startsWithT p.reverse t.reverse

/-- Python `str.lower()` (ASCII is what the source ever feeds it). -/
def lowerT (t : Text) : Text := t.map Char.toLower

/-- Python `sep in t` (substring containment) for a pattern `m`. -/
def containsSub (m : Text) : Text → Bool
  | [] => startsWithT m []
  | c :: t => startsWithT m (c :: t) || containsSub m t

/-- Fuel-driven worker for `splitOnL`; the fuel only bounds recursion
depth (one unit per character consumed) so that the function is
structurally recursive and computes by kernel reduction. -/
def splitOnGo (sep : Text) : Nat → Text → List Text
  | _, [] => [[]]
  | 0, t => [t]
  | fuel + 1, c :: t =>
    if sep ≠ [] ∧ startsWithT sep (c :: t) then
      [] :: splitOnGo sep fuel ((c :: t).drop sep.length)
    else
      match splitOnGo sep fuel t with
      | [] => [[c]]
      | h :: rest => (c :: h) :: rest

/-- Python `t.split(sep)` for a nonempty separator: split at every
non-overlapping occurrence, scanning left to right.  (`t.split(sep)` is
never called with an empty separator by the source; on `sep = []` this
returns `[t]`.) -/
def splitOnL (sep : Text) (t : Text) : List Text := splitOnGo sep t.length t

/-- Worker for `splitlinesT`: `cur` accumulates the current line in
reverse; a `pyLineBoundary` character ends the line, `\r\n` ends it
consuming both characters, and a final segment is emitted only when
nonempty. -/
def splitlinesGo : Nat → Text → Text → List Text
  | _, cur, [] => if cur = [] then [] else [cur.reverse]
  | 0, cur, t => [cur.reverse ++ t]
  | fuel + 1, cur, c :: t =>
    if pyLineBoundary c then
      if c = '\r' then
        match t with
        | '\n' :: t2 => cur.reverse :: splitlinesGo fuel [] t2
        | _ => cur.reverse :: splitlinesGo fuel [] t
      else cur.reverse :: splitlinesGo fuel [] t
    else splitlinesGo fuel (c :: cur) t

/-- Python `str.splitlines()` (the fuel only bounds recursion depth, one
unit per character consumed, so the worker is structurally recursive and
computes by kernel reduction). -/
def splitlinesT (t : Text) : List Text := splitlinesGo t.length [] t

/-- Fuel-driven worker for `splitWs` (structural recursion on the fuel,
one unit per character consumed). -/
def splitWsGo : Nat → Text → List Text
  | _, [] => []
  | 0, _ => []
  | fuel + 1, c :: t =>
    if isWsC c then splitWsGo fuel t
    else (c :: t.takeWhile (fun x => !isWsC x)) ::
      splitWsGo fuel (t.dropWhile (fun x => !isWsC x))

/-- Python `str.split()` with no argument: split on runs of whitespace,
dropping empty fields. -/
def splitWs (t : Text) : List Text := splitWsGo t.length t

/-- Python `lst[a:b]` for `0 ≤ a`, `0 ≤ b` (as used by the Markdown parser). -/
def sliceT (l : List Text) (a b : Nat) : List Text := (l.drop a).take (b - a)

/-- Normalise a Python index for a list of length `len`: negative indices
count from the end, and slice bounds clamp into range. -/
def pyNorm (len : Nat) (i : Int) : Nat :=
  if i < 0 then ((len : Int) + i).toNat else min i.toNat len

/-- Python `lst[a:b]` with possibly negative bounds (the RST parser
produces the bound `-1` when a heading underline sits on the first line). -/
def pySlice (l : List Text) (a b : Int) : List Text :=
  let a' := pyNorm l.length a
  let b' := pyNorm l.length b
  (l.drop a').take (b' - a')

/-- Python `lst[i]` with possibly negative index, defaulting to `[]` out of
range (the source only indexes in range). -/
def pyIdx (l : List Text) (i : Int) : Text :=
  (l.drop (pyNorm l.length i)).headD []

/-- `[x for x, y in enumerate(lines) if f(y)]`, with indices starting at `i`. -/
def enumIdxsFrom (f : Text → Bool) (i : Nat) : List Text → List Nat
  | [] => []
  | l :: ls => if f l then i :: enumIdxsFrom f (i + 1) ls else enumIdxsFrom f (i + 1) ls

/-- `[x for x, y in enumerate(lines) if f(y)]`. -/
def enumIdxs (f : Text → Bool) (lines : List Text) : List Nat := enumIdxsFrom f 0 lines

/-- Python `sorted` on a list of strings: a stable ascending sort under
the lexicographic character-code order (the order Python compares
strings by). -/
def sortTexts (l : List Text) : List Text :=
  List.insertionSort (fun a b : Text => a ≤ b) l

/-! ## Data model: values, dates, errors, external services -/

/-- A parsed date (`superdate.SuperDate`): the rendering pieces the core
uses — `%Y-%m-%d`, the weekday abbreviation, and the optional `%H:%M`
time-of-day (present exactly when the wrapped value is a `datetime`). -/
structure DateLike where
  ymd : Text
  wday : Text
  hm : Option Text
deriving DecidableEq

/-- `d.strftime('%Y-%m-%d, %a')` resp. `d.strftime('%Y-%m-%d, %a, %H:%M')`,
as `Attributes.toYamlDict` renders a date value. -/
def renderDate (d : DateLike) : Text :=
  d.ymd ++ txt ", " ++ d.wday ++ (match d.hm with
    | some t => txt ", " ++ t
    | Option.none => [])

/-- A Python value as the attribute map stores it: `None`, booleans,
integers, strings, `SuperDate` wrappers, lists, dicts (insertion-ordered
association lists), and the `NoCompare` sentinel a lookup miss returns. -/
inductive Value where
  | pyNone : Value
  | bool (b : Bool) : Value
  | int (n : Int) : Value
  | str (s : Text) : Value
  | date (d : DateLike) : Value
  | vlist (xs : List Value) : Value
  | dict (xs : List (Text × Value)) : Value
  | noCompare : Value

/-- Python truthiness of a stored value (`bool(v)`); the `NoCompare`
sentinel is an ordinary object and hence truthy. -/
def Value.truthy : Value → Bool
  | .pyNone => false
  | .bool b => b
  | .int n => n != 0
  | .str s => !s.isEmpty
  | .date _ => true
  | .vlist xs => !xs.isEmpty
  | .dict xs => !xs.isEmpty
  | .noCompare => true

/-- The exceptions the embedded code can raise. -/
inductive Err where
  | parseError : Err
  | keyError : Err
  | valueError : Err
  | attributeError : Err
deriving DecidableEq

/-- The external services the core consumes, as the design's §6 declares
them: the date service (`superdate`) and the structured-data service
(`yaml`).  The embedding is parametric in them; theorems state the needed
contract points as hypotheses. -/
structure ExtSvc where
  /-- `superdate.parse_date` / `SuperDate(...)` on a string: the parsed
  date, or `none` when parsing fails (the library raises). -/
  parse_date : Text → Option DateLike
  /-- `SuperDate(...)` on a truthy value that is neither a string nor
  already a date (behaviour the design leaves to the service). -/
  sdOther : Value → Option Value
  /-- `parse_date('today')`: the date the service returns for "today". -/
  today : DateLike
  /-- `yaml.safe_load` on nonempty text: the decoded tree, or `none` when
  the blob is malformed (the library raises). -/
  yload : Text → Option Value
  /-- `yaml.dump` of a dict (keys rendered in sorted order by the
  library). -/
  ydump : List (Text × Value) → Text

/-- `yaml.safe_load` of a stripped attribute blob: the empty string decodes
to Python `None` (fixed PyYAML behaviour); anything else is delegated to
the service. -/
def yamlLoad (ext : ExtSvc) (s : Text) : Except Err Value :=
  if s = [] then pure Value.pyNone
  else match ext.yload s with
    | some v => pure v
    | Option.none => throw Err.parseError

/-! ## Ordered dictionaries (Python dicts as association lists) -/

/-- Keys of an association list, in insertion order. -/
def keysD {α : Type} (d : List (Text × α)) : List Text := d.map (·.1)

/-- Python `d[k]` lookup (the first binding; construction keeps keys
unique). -/
def getD? {α : Type} : List (Text × α) → Text → Option α
  | [], _ => Option.none
  | p :: ps, k => if p.1 = k then some p.2 else getD? ps k

/-- Python `d[k] = v`: overwrite in place if the key exists (CPython keeps
the original insertion position), else append. -/
def setD {α : Type} (d : List (Text × α)) (k : Text) (v : α) : List (Text × α) :=
  if (keysD d).contains k then d.map (fun p => if p.1 == k then (p.1, v) else p)
  else d ++ [(k, v)]

/-- Python `del d[k]`. -/
def delD {α : Type} (d : List (Text × α)) (k : Text) : List (Text × α) :=
  d.filter (fun p => p.1 != k)

/-! ## Attributes (`libzet/Attributes.py`) -/

/-- The attribute map: a Python `dict` subclass, embedded as an ordered
association list. -/
abbrev Attributes : Type := List (Text × Value)

/-- The keys `Attributes.__setitem__` always date-coerces. -/
def dtfields : List Text := [txt "event_begin", txt "event_end", txt "recurring_stop"]

/-- Whether a key triggers date coercion: member of `dtfields`, or contains
the substring `date`. -/
def isDateKey (k : Text) : Bool := dtfields.contains k || containsSub (txt "date") k

/-- `SuperDate(val)`: parse a string, keep an already-wrapped date, and
defer to the service on any other value. -/
def superDate (ext : ExtSvc) : Value → Option Value
  | .str s => (ext.parse_date s).map Value.date
  | .date d => some (.date d)
  | v => ext.sdOther v

/-- `Attributes.__setitem__`: coerce truthy values under date-like keys
through `SuperDate`, then store. -/
def Attributes.setitem (ext : ExtSvc) (a : Attributes) (k : Text) (v : Value) :
    Except Err Attributes :=
  if v.truthy && isDateKey k then
    match superDate ext v with
    | some v' => pure (setD a k v')
    | Option.none => throw Err.parseError
  else pure (setD a k v)

/-- `Attributes.update` from a list of key/value pairs: item-wise
`__setitem__`, so coercion re-runs per key. -/
def Attributes.updateA (ext : ExtSvc) (a : Attributes) (ps : List (Text × Value)) :
    Except Err Attributes :=
  ps.foldlM (fun acc p => Attributes.setitem ext acc p.1 p.2) a

/-- `Attributes.__getitem__`: a lookup miss returns the `NoCompare`
sentinel instead of raising. -/
def Attributes.getitem (a : Attributes) (k : Text) : Value :=
  match getD? a k with
  | some v => v
  | Option.none => Value.noCompare

/-- `Attributes.toYamlDict`: project to a plain dict, rendering truthy
date-key values through `strftime`; a truthy non-date value under a
date-like key has no `_date` member and raises `AttributeError`. -/
def Attributes.toYamlDict (a : Attributes) : Except Err (List (Text × Value)) :=
  a.mapM (fun p =>
    if p.2.truthy && isDateKey p.1 then
      match p.2 with
      | .date d => pure (p.1, Value.str (renderDate d))
      | _ => throw Err.attributeError
    else pure p)

/-- `Attributes.__str__`: `'---\n' + yaml.dump(self.toYamlDict())`. -/
def Attributes.strA (ext : ExtSvc) (a : Attributes) : Except Err Text := do
  let d ← Attributes.toYamlDict a
  pure (txt "---\n" ++ ext.ydump d)

/-! ## The NoCompare sentinel

The class itself (`libzet/NoCompare.py`) is imported by `Attributes.py`
and by the test suite but its file is not part of the sources available
here, so its comparison operators are modelled from the spec. -/

/-- The six relational operators Python dispatches on the sentinel. -/
inductive CmpOp where
  | ceq | cne | clt | cgt | cle | cge
deriving DecidableEq

/-- Modelled from the spec: `NoCompare.py` is not under `src/`; the spec
states the sentinel "compares as false against every value under every
relational operator (equality, ordering)", and the test suite asserts all
six operators return `False` against a non-absent value. -/
def noCompareRel : CmpOp → Value → Bool
  | .ceq, _ => false
  | .cne, _ => false
  | .clt, _ => false
  | .cgt, _ => false
  | .cle, _ => false
  | .cge, _ => false

/-! ## Zettel (`libzet/Zettel.py`)

File-path probing (`os.path.exists`) belongs to the filesystem
collaborator; the embedding models the text path of each entry point,
which is the behaviour every claim is about.  Constructor keyword
arguments are not used by any claim and are omitted. -/

/-- A zettel: title, ordered heading map, attribute map. -/
structure Zettel where
  title : Text
  headings : List (Text × Text)
  attrs : Attributes

/-- `Zettel.__init__`: copy the headings, build the attributes through
item-wise assignment (re-running date coercion), then default
`creation_date` to `parse_date('today')` and `zlinks` to `{}` when
missing.  The attributes argument arrives as the decoded yaml tree:
`None` means no attributes, a dict is loaded item-wise, and anything else
fails to load as a dict. -/
def Zettel.mk0 (ext : ExtSvc) (title : Text) (headings : List (Text × Text))
    (attrsV : Value) : Except Err Zettel := do
  let a ← match attrsV with
    | .pyNone => pure ([] : Attributes)
    | .dict d => Attributes.updateA ext [] d
    | _ => throw Err.valueError
  let a ← if (keysD a).contains (txt "creation_date") then pure a
    else Attributes.setitem ext a (txt "creation_date") (Value.date ext.today)
  let a ← if (keysD a).contains (txt "zlinks") then pure a
    else Attributes.setitem ext a (txt "zlinks") (Value.dict [])
  pure { title := title, headings := headings, attrs := a }

/-- `_is_md_heading`: `s.lstrip().startswith('## ')`. -/
def _is_md_heading (s : Text) : Bool := startsWithT (txt "## ") (lstripT s)

/-- `_is_rst_heading`: `s.strip().startswith('=') and s.strip().endswith('=')`. -/
def _is_rst_heading (s : Text) : Bool :=
  startsWithT (txt "=") (stripT s) && endsWithT (txt "=") (stripT s)

/-- The Markdown attribute-block marker. -/
def mdAttrHeader : Text := txt "<!--- attributes --->"

/-- The RST attribute-block marker. -/
def rstAttrHeader : Text := txt ".. attributes\n::"

/-- The split the decoders perform around the attribute marker: split on
every occurrence, re-join everything but the last piece (so the body is
everything before the rightmost occurrence), and single out the last
piece as the attribute blob; with no occurrence the blob is empty. -/
def splitAttrHeader (marker : Text) (t : Text) : Text × Text :=
  let parts := splitOnL marker t
  let parts := if parts.length = 1 then parts ++ [[]] else parts
  (List.intercalate marker parts.dropLast, parts.getLastD [])

/-- The Markdown heading loop: for each pair of consecutive heading
points, the heading name is the marker line with every `'## '` removed
and the remainder stripped, and the content is the slice of lines up to
the next point. -/
def collectMd (lines : List Text) : List Nat → List (Text × Text)
  | p :: q :: rest =>
    let line := (lines.drop p).headD []
    let name := stripT (((splitOnL (txt "## ") line).drop 1).flatten)
    let content := List.intercalate (txt "\n") (sliceT lines (p + 1) q)
    (name, content) :: collectMd lines (q :: rest)
  | _ => []

/-- The `_notes`/heading-map scrape the Markdown decoder performs on the
body lines left after the title was split off. -/
def mdHeadMap (lines : List Text) : List (Text × Text) :=
  let pts := enumIdxs _is_md_heading lines ++ [lines.length]
  let notes := List.intercalate (txt "\n") (lines.take (pts.headD 0))
  let hmap : List (Text × Text) := if notes = [] then [] else [(txt "_notes", notes)]
  (collectMd lines pts).foldl (fun m p => setD m p.1 p.2) hmap

/-- The title/heading-map scrape `createFromMd` performs on the body text
(everything before the rightmost attribute marker). -/
def mdBody (body : Text) : Text × List (Text × Text) :=
  let lines := splitlinesT body
  if lines ≠ [] && startsWithT (txt "# ") (stripT (lines.headD [])) then
    (List.intercalate (txt " ") ((splitWs (lines.headD [])).drop 1),
      mdHeadMap lines.tail)
  else ([], mdHeadMap lines)

/-- `Zettel.createFromMd`. -/
def Zettel.createFromMd (ext : ExtSvc) (md : Text) : Except Err Zettel := do
  let md := stripT md
  if md = [] then Zettel.mk0 ext [] [] Value.pyNone else
  let (body, blob) := splitAttrHeader mdAttrHeader md
  let attrsV ← yamlLoad ext (stripT blob)
  Zettel.mk0 ext (mdBody body).1 (mdBody body).2 attrsV

/-- The RST heading loop: the heading name is the line at the point
(verbatim), and the content starts two lines down (skipping the
underline).  Points are Python ints: a rule on the first line yields the
point `-1`. -/
def collectRst (lines : List Text) : List Int → List (Text × Text)
  | p :: q :: rest =>
    let name := pyIdx lines p
    let content := List.intercalate (txt "\n") (pySlice lines (p + 2) q)
    (name, content) :: collectRst lines (q :: rest)
  | _ => []

/-- The `_notes`/heading-map scrape the RST decoder performs on the body
lines left after the title block was split off. -/
def rstHeadMap (lines : List Text) : List (Text × Text) :=
  let pts := (enumIdxs _is_rst_heading lines).map (fun x => (x : Int) - 1)
      ++ [(lines.length : Int)]
  let notes := List.intercalate (txt "\n")
      (pySlice lines 0 (pts.headD 0))
  let hmap : List (Text × Text) := if notes = [] then [] else [(txt "_notes", notes)]
  (collectRst lines pts).foldl (fun m p => setD m p.1 p.2) hmap

/-- The title/heading-map scrape `createFromRst` performs on the body text. -/
def rstBody (body : Text) : Text × List (Text × Text) :=
  let lines := splitlinesT body
  if lines.length ≥ 3 && _is_rst_heading (lines.headD [])
      && _is_rst_heading ((lines.drop 2).headD []) then
    (stripT ((lines.drop 1).headD []), rstHeadMap (lines.drop 3))
  else ([], rstHeadMap lines)

/-- `Zettel.createFromRst`. -/
def Zettel.createFromRst (ext : ExtSvc) (rst : Text) : Except Err Zettel := do
  let rst := stripT rst
  if rst = [] then Zettel.mk0 ext [] [] Value.pyNone else
  let (body, blob) := splitAttrHeader rstAttrHeader rst
  let attrsV ← yamlLoad ext (stripT blob)
  Zettel.mk0 ext (rstBody body).1 (rstBody body).2 attrsV

/-- `Zettel.update`: replace title and attributes with the new zettel's
(rebuilding the attribute map item-wise and restoring the original
`creation_date`); replace the whole heading map when `exp_headings` is
empty/absent, otherwise delete every expected heading missing from the
new zettel and merge the new headings in. -/
def Zettel.update (ext : ExtSvc) (self new_zettel : Zettel)
    (exp_headings : List Text) : Except Err Zettel := do
  let title := new_zettel.title
  let orig := Attributes.getitem self.attrs (txt "creation_date")
  let a ← Attributes.updateA ext [] new_zettel.attrs
  let a ← Attributes.setitem ext a (txt "creation_date") orig
  let hs :=
    if exp_headings.isEmpty then new_zettel.headings
    else
      let cur := exp_headings.foldl (fun m h =>
        if !(keysD new_zettel.headings).contains h && (keysD m).contains h
        then delD m h else m) self.headings
      new_zettel.headings.foldl (fun m p => setD m p.1 p.2) cur
  pure { title := title, headings := hs, attrs := a }

/-- The display-order heading list `getMd`/`getRst` iterate: the supplied
filter, or the stored keys when no (or an empty) filter is given, all
lowercased. -/
def displayHeadings (z : Zettel) (headings : List Text) : List Text :=
  (if headings.isEmpty then keysD z.headings else headings).map lowerT

/-- `{k.lower(): k for k in self.headings}`: the case-folded lookup index
(later keys overwrite earlier ones). -/
def lookupHeadings (z : Zettel) : List (Text × Text) :=
  (keysD z.headings).foldl (fun m k => setD m (lowerT k) k) []

/-- The `## `-section lines `getMd` emits for one requested heading. -/
def mdSection (z : Zettel) (h : Text) : List Text :=
  if h = txt "_notes" then []
  else match getD? (lookupHeadings z) h with
    | some orig => [txt "## " ++ orig, (getD? z.headings orig).getD []]
    | Option.none => []

/-- The title line plus the `_notes` body `getMd` starts with: the title
line when the title is truthy, then — when the (lowercased) display list
contains `_notes` — the stored `_notes` body, looked up unguarded (a
`KeyError` when no literal `_notes` heading is stored) and appended only
when truthy. -/
def mdPrefix (z : Zettel) (hs : List Text) : Except Err (List Text) :=
  let s : List Text := if !z.title.isEmpty then [txt "# " ++ z.title] else []
  if hs.contains (txt "_notes") then
    match getD? z.headings (txt "_notes") with
    | some nv => pure (if !nv.isEmpty then s ++ [nv] else s)
    | Option.none => throw Err.keyError
  else pure s

/-- `Zettel.getMd`. -/
def Zettel.getMd (ext : ExtSvc) (z : Zettel) (headings : List Text) :
    Except Err Text := do
  let hs := displayHeadings z headings
  let s ← mdPrefix z hs
  let s := s ++ (hs.map (mdSection z)).flatten
  let strA ← Attributes.strA ext z.attrs
  let s := s ++ [mdAttrHeader] ++ (splitlinesT strA).map (fun x => txt "    " ++ x) ++ [[]]
  pure (List.intercalate (txt "\n") s)

/-- The section lines `getRst` emits for one requested heading: the stored
name, an `=` underline of its length, then the content. -/
def rstSection (z : Zettel) (h : Text) : List Text :=
  if h = txt "_notes" then []
  else match getD? (lookupHeadings z) h with
    | some orig =>
      [orig, List.replicate orig.length '=', (getD? z.headings orig).getD []]
    | Option.none => []

/-- The title block plus the `_notes` body `getRst` starts with; unlike
`mdPrefix` the `_notes` body is appended without a truthiness check. -/
def rstPrefix (z : Zettel) (hs : List Text) : Except Err (List Text) :=
  let s : List Text := if !z.title.isEmpty then
      [List.replicate (z.title.length + 2) '=', txt " " ++ z.title,
        List.replicate (z.title.length + 2) '=']
    else []
  if hs.contains (txt "_notes") then
    match getD? z.headings (txt "_notes") with
    | some nv => pure (s ++ [nv])
    | Option.none => throw Err.keyError
  else pure s

/-- `Zettel.getRst`. -/
def Zettel.getRst (ext : ExtSvc) (z : Zettel) (headings : List Text) :
    Except Err Text := do
  let hs := displayHeadings z headings
  let s ← rstPrefix z hs
  let s := s ++ (hs.map (rstSection z)).flatten
  let strA ← Attributes.strA ext z.attrs
  let s := s ++ [txt ".. attributes", txt "::", []]
      ++ (splitlinesT strA).map (fun x => txt "    " ++ x) ++ [[]]
  pure (List.intercalate (txt "\n") s)

/-! ## Multi-document pack/unpack (`libzet/parsing.py`) -/

/-- The RST document separator sentinel. -/
def rst_sep : Text := txt ".. end-zettel"

/-- The Markdown document separator sentinel. -/
def md_sep : Text := txt "<!--- end-zettel --->"

/-- `zettels_to_str`: encode each zettel, drop empty encodings, sort the
texts, join with the dialect sentinel surrounded by blank lines. -/
def zettels_to_str (ext : ExtSvc) (zettels : List Zettel) (zettel_format : Text)
    (headings : List Text) : Except Err Text := do
  if zettel_format ≠ txt "rst" ∧ zettel_format ≠ txt "md" then
    throw Err.valueError
  else if zettel_format = txt "rst" then
    let texts ← zettels.mapM (fun z => Zettel.getRst ext z headings)
    pure (List.intercalate (txt "\n" ++ rst_sep ++ txt "\n\n\n")
      (sortTexts (texts.filter (fun x => !x.isEmpty))))
  else
    let texts ← zettels.mapM (fun z => Zettel.getMd ext z headings)
    pure (List.intercalate (txt "\n" ++ md_sep ++ txt "\n\n\n")
      (sortTexts (texts.filter (fun x => !x.isEmpty))))

/-- `get_zettels_from_md`: trim, split on the sentinel, drop a trailing
empty chunk, decode each chunk. -/
def get_zettels_from_md (ext : ExtSvc) (md : Text) : Except Err (List Zettel) := do
  let md := stripT md
  if md = [] then pure [] else
  let texts := splitOnL md_sep md
  let texts := if texts.getLastD [] = [] then texts.dropLast else texts
  texts.mapM (Zettel.createFromMd ext)

/-- `get_zettels_from_rst`. -/
def get_zettels_from_rst (ext : ExtSvc) (rst : Text) : Except Err (List Zettel) := do
  let rst := stripT rst
  if rst = [] then pure [] else
  let texts := splitOnL rst_sep rst
  let texts := if texts.getLastD [] = [] then texts.dropLast else texts
  texts.mapM (Zettel.createFromRst ext)

/-- `str_to_zettels`: dispatch on the format string; an unknown format
returns the initial empty list. -/
def str_to_zettels (ext : ExtSvc) (text : Text) (zettel_format : Text) :
    Except Err (List Zettel) :=
  if zettel_format = txt "rst" then get_zettels_from_rst ext text
  else if zettel_format = txt "md" then get_zettels_from_md ext text
  else pure []

/-- A pattern has no nontrivial border when none of its proper nonempty
suffixes is one of its prefixes; occurrences of such a pattern cannot
straddle a point where the pattern itself was inserted.  Both attribute
markers enjoy this (checked by `decide`). -/
def noBorder (m : Text) : Prop :=
  ∀ j, j < m.length → 0 < j → startsWithT (m.drop j) m = false

/-- Whether an `Except` computation succeeded. -/
def okB {α : Type} : Except Err α → Bool
  | .ok _ => true
  | .error _ => false

/-- Unwrap an encoder result (empty text on error). -/
def okText (e : Except Err Text) : Text :=
  match e with
  | .ok t => t
  | .error _ => []

/-- Unwrap a decoder result (a dummy zettel on error). -/
def okZettel (e : Except Err Zettel) : Zettel :=
  match e with
  | .ok z => z
  | .error _ => ⟨[], [], []⟩

/-- The date the concrete service returns for "today". -/
def dC : DateLike := ⟨txt "2022-04-19", txt "Tue", Option.none⟩

/-- A second concrete date. -/
def dC2 : DateLike := ⟨txt "2022-04-20", txt "Wed", Option.none⟩

/-- The concrete external services. -/
def extC : ExtSvc := {
  parse_date := fun s =>
    if s = txt "today" then some dC
    else if s = txt "next wednesday" then some dC2
    else if s = txt "2022-04-19, Tue" then some dC
    else Option.none,
  sdOther := fun _ => Option.none,
  today := dC,
  yload := fun s =>
    if s = txt "---\n    greeting: hello" then
      some (.dict [(txt "greeting", .str (txt "hello"))])
    else if s = txt "---\n    creation_date: 2022-04-19, Tue\n    greeting: hello\n    zlinks: {}" then
      some (.dict [(txt "creation_date", .str (txt "2022-04-19, Tue")),
        (txt "greeting", .str (txt "hello")), (txt "zlinks", .dict [])])
    else if s = txt "---\n    creation_date: 2022-04-19, Tue\n    zlinks: {}" then
      some (.dict [(txt "creation_date", .str (txt "2022-04-19, Tue")),
        (txt "zlinks", .dict [])])
    else Option.none,
  ydump := fun d =>
    if keysD d = [txt "creation_date", txt "zlinks", txt "greeting"]
        ∨ keysD d = [txt "greeting", txt "creation_date", txt "zlinks"] then
      txt "creation_date: 2022-04-19, Tue\ngreeting: hello\nzlinks: {}\n"
    else if keysD d = [txt "creation_date", txt "zlinks"] then
      txt "creation_date: 2022-04-19, Tue\nzlinks: {}\n"
    else txt "x: y\n" }

/-- The concrete Markdown text of the spec's concrete scenario. -/
def c2Text : Text :=
  txt "# my title\n\ncontent\n\n<!--- attributes --->\n    ---\n    greeting: hello\n"

/-- A zettel whose title contains a double space: the Markdown title line
is re-parsed by whitespace-splitting, so the round trip collapses it. -/
def zDouble : Zettel :=
  ⟨txt "a  b", [], [(txt "creation_date", .date dC), (txt "zlinks", .dict [])]⟩

/-- A zettel storing a heading whose name lowercases to `_notes` without
being `_notes`: encoding it with no filter hits the unguarded
`self.headings['_notes']` lookup. -/
def zUpperNotes : Zettel :=
  ⟨txt "t", [(txt "_NOTES", txt "x")],
   [(txt "creation_date", .date dC), (txt "zlinks", .dict [])]⟩

/-! ## Dictionary lemmas -/

theorem getD?_nil {α : Type} (k : Text) : getD? ([] : List (Text × α)) k = Option.none := rfl

theorem getD?_cons {α : Type} (p : Text × α) (ps : List (Text × α)) (k : Text) :
    getD? (p :: ps) k = if p.1 = k then some p.2 else getD? ps k := rfl

theorem getD?_eq_none_iff {α : Type} (d : List (Text × α)) (k : Text) :
    getD? d k = Option.none ↔ k ∉ keysD d := by
  induction d with
  | nil => simp [getD?_nil, keysD]
  | cons p ps ih =>
    rw [getD?_cons]
    by_cases h : p.1 = k
    · rw [if_pos h]
      refine iff_of_false (by simp) (fun hb => hb ?_)
      simp only [keysD, List.map_cons, List.mem_cons]
      exact Or.inl h.symm
    · simp only [if_neg h, keysD, List.map_cons, List.mem_cons, ih]
      constructor
      · intro hn hmem
        rcases hmem with h1 | h2
        · exact h h1.symm
        · exact hn h2
      · intro hn hm
        exact hn (Or.inr hm)

theorem getD?_eq_some_of_mem {α : Type} (d : List (Text × α)) (k : Text)
    (h : k ∈ keysD d) : ∃ v, getD? d k = some v := by
  cases hv : getD? d k with
  | none => exact absurd h ((getD?_eq_none_iff d k).mp hv)
  | some v => exact ⟨v, rfl⟩

theorem contains_keysD_iff {α : Type} (d : List (Text × α)) (k : Text) :
    (keysD d).contains k = true ↔ k ∈ keysD d := by
  simp [List.contains, List.elem_iff]

theorem setD_not_mem {α : Type} (d : List (Text × α)) (k : Text) (v : α)
    (h : k ∉ keysD d) : setD d k v = d ++ [(k, v)] := by
  unfold setD
  rw [if_neg]
  intro hc
  exact h ((contains_keysD_iff d k).mp hc)

theorem setD_mem {α : Type} (d : List (Text × α)) (k : Text) (v : α)
    (h : k ∈ keysD d) :
    setD d k v = d.map (fun p => if p.1 == k then (p.1, v) else p) := by
  unfold setD
  rw [if_pos ((contains_keysD_iff d k).mpr h)]

theorem getD?_append {α : Type} (d₁ d₂ : List (Text × α)) (k : Text) :
    getD? (d₁ ++ d₂) k =
      match getD? d₁ k with
      | some v => some v
      | Option.none => getD? d₂ k := by
  induction d₁ with
  | nil => simp [getD?_nil]
  | cons p ps ih =>
    rw [List.cons_append, getD?_cons, getD?_cons]
    by_cases hp : p.1 = k
    · simp [hp]
    · simp only [if_neg hp]
      exact ih

theorem getD?_replace_self {α : Type} (d : List (Text × α)) (k : Text) (v : α) :
    getD? (d.map (fun p => if p.1 == k then (p.1, v) else p)) k =
      (getD? d k).map (fun _ => v) := by
  induction d with
  | nil => rfl
  | cons p ps ih =>
    by_cases hp : p.1 = k
    · simp only [List.map_cons, if_pos (show (p.1 == k) = true from beq_iff_eq.mpr hp)]
      rw [getD?_cons, getD?_cons]
      simp [hp]
    · simp only [List.map_cons,
        if_neg (show ¬(p.1 == k) = true by simp [hp])]
      rw [getD?_cons, getD?_cons, if_neg hp, if_neg hp]
      exact ih

theorem getD?_replace_ne {α : Type} (d : List (Text × α)) (k k' : Text) (v : α)
    (h : k' ≠ k) :
    getD? (d.map (fun p => if p.1 == k then (p.1, v) else p)) k' = getD? d k' := by
  induction d with
  | nil => rfl
  | cons p ps ih =>
    by_cases hp : p.1 = k
    · simp only [List.map_cons, if_pos (show (p.1 == k) = true from beq_iff_eq.mpr hp)]
      rw [getD?_cons, getD?_cons, if_neg (fun he => h (he.symm.trans hp)),
        if_neg (fun he => h (he.symm.trans hp))]
      exact ih
    · simp only [List.map_cons,
        if_neg (show ¬(p.1 == k) = true by simp [hp])]
      rw [getD?_cons, getD?_cons]
      by_cases hq : p.1 = k'
      · simp [hq]
      · rw [if_neg hq, if_neg hq]
        exact ih

theorem getD?_setD_self {α : Type} (d : List (Text × α)) (k : Text) (v : α) :
    getD? (setD d k v) k = some v := by
  by_cases h : k ∈ keysD d
  · rw [setD_mem d k v h, getD?_replace_self]
    obtain ⟨w, hw⟩ := getD?_eq_some_of_mem d k h
    rw [hw]
    rfl
  · rw [setD_not_mem d k v h, getD?_append]
    rw [(getD?_eq_none_iff d k).mpr h]
    simp [getD?_cons]

theorem getD?_setD_ne {α : Type} (d : List (Text × α)) (k k' : Text) (v : α)
    (h : k' ≠ k) : getD? (setD d k v) k' = getD? d k' := by
  by_cases hm : k ∈ keysD d
  · rw [setD_mem d k v hm, getD?_replace_ne d k k' v h]
  · rw [setD_not_mem d k v hm, getD?_append]
    cases hg : getD? d k' with
    | none => simp [getD?_cons, getD?_nil, Ne.symm h]
    | some w => rfl

theorem keysD_setD_mem {α : Type} (d : List (Text × α)) (k : Text) (v : α)
    (h : k ∈ keysD d) : keysD (setD d k v) = keysD d := by
  rw [setD_mem d k v h]
  simp only [keysD, List.map_map]
  apply List.map_congr_left
  intro p _
  by_cases hp : p.1 = k
  · simp [hp]
  · simp [hp]

theorem keysD_setD_not_mem {α : Type} (d : List (Text × α)) (k : Text) (v : α)
    (h : k ∉ keysD d) : keysD (setD d k v) = keysD d ++ [k] := by
  rw [setD_not_mem d k v h]
  simp [keysD]

theorem getD?_delD_self {α : Type} (d : List (Text × α)) (k : Text) :
    getD? (delD d k) k = Option.none := by
  induction d with
  | nil => rfl
  | cons p ps ih =>
    unfold delD at ih ⊢
    by_cases hp : p.1 = k
    · rw [List.filter_cons_of_neg (by simp [hp])]
      exact ih
    · rw [List.filter_cons_of_pos (by simp [hp])]
      rw [getD?_cons, if_neg hp]
      exact ih

theorem getD?_delD_ne {α : Type} (d : List (Text × α)) (k k' : Text)
    (h : k' ≠ k) : getD? (delD d k) k' = getD? d k' := by
  induction d with
  | nil => rfl
  | cons p ps ih =>
    unfold delD at ih ⊢
    by_cases hp : p.1 = k
    · rw [List.filter_cons_of_neg (by simp [hp])]
      rw [ih, getD?_cons, if_neg (fun he => h (he.symm.trans hp))]
    · rw [List.filter_cons_of_pos (by simp [hp])]
      rw [getD?_cons, getD?_cons]
      by_cases hq : p.1 = k'
      · simp [hq]
      · rw [if_neg hq, if_neg hq, ih]

theorem foldl_setD_not_mem {α : Type} (ps : List (Text × α)) (m : List (Text × α))
    (k : Text) (h : k ∉ keysD ps) :
    getD? (ps.foldl (fun m p => setD m p.1 p.2) m) k = getD? m k := by
  induction ps generalizing m with
  | nil => rfl
  | cons q qs ih =>
    rw [List.foldl_cons]
    have hq : k ∉ keysD qs := by
      intro hk
      exact h (by simp only [keysD, List.map_cons, List.mem_cons]; exact Or.inr hk)
    have hne : k ≠ q.1 := by
      intro he
      exact h (by simp only [keysD, List.map_cons, List.mem_cons]; exact Or.inl he)
    rw [ih (setD m q.1 q.2) hq, getD?_setD_ne m q.1 k q.2 hne]

theorem foldl_setD_mem {α : Type} (ps : List (Text × α)) (m : List (Text × α))
    (k : Text) (hnd : (keysD ps).Nodup) (h : k ∈ keysD ps) :
    getD? (ps.foldl (fun m p => setD m p.1 p.2) m) k = getD? ps k := by
  induction ps generalizing m with
  | nil => simp [keysD] at h
  | cons q qs ih =>
    rw [List.foldl_cons, getD?_cons]
    simp only [keysD, List.map_cons, List.nodup_cons] at hnd
    by_cases hq : q.1 = k
    · rw [if_pos hq]
      have hk : k ∉ keysD qs := hq ▸ hnd.1
      rw [foldl_setD_not_mem qs (setD m q.1 q.2) k hk, hq, getD?_setD_self]
    · rw [if_neg hq]
      have hk : k ∈ keysD qs := by
        simp only [keysD, List.map_cons, List.mem_cons] at h
        rcases h with h1 | h2
        · exact absurd h1.symm hq
        · exact h2
      exact ih (setD m q.1 q.2) hnd.2 hk

theorem keysD_cons {α : Type} (q : Text × α) (qs : List (Text × α)) :
    keysD (q :: qs) = q.1 :: keysD qs := rfl

theorem foldl_setD_disjoint {α : Type} (ps : List (Text × α)) (acc : List (Text × α))
    (hnd : (keysD ps).Nodup) (hdisj : ∀ k ∈ keysD ps, k ∉ keysD acc) :
    ps.foldl (fun m p => setD m p.1 p.2) acc = acc ++ ps := by
  induction ps generalizing acc with
  | nil => simp
  | cons q qs ih =>
    rw [List.foldl_cons]
    rw [keysD_cons, List.nodup_cons] at hnd
    have hq : q.1 ∉ keysD acc := hdisj q.1 (by rw [keysD_cons]; exact List.mem_cons_self _ _)
    rw [setD_not_mem acc q.1 q.2 hq]
    rw [ih (acc ++ [(q.1, q.2)]) hnd.2 ?_]
    · simp
    · intro k hk
      have hkc : k ∈ keysD (q :: qs) := by
        rw [keysD_cons]; exact List.mem_cons_of_mem _ hk
      intro hmem
      have : keysD (acc ++ [(q.1, q.2)]) = keysD acc ++ [q.1] := by
        simp [keysD]
      rw [this, List.mem_append, List.mem_singleton] at hmem
      rcases hmem with h1 | h2
      · exact hdisj k hkc h1
      · exact hnd.1 (h2 ▸ hk)

theorem setitem_typed (ext : ExtSvc) (a : Attributes) (k : Text) (v : Value)
    (h : v.truthy = true → isDateKey k = true → ∃ d, v = Value.date d) :
    Attributes.setitem ext a k v = Except.ok (setD a k v) := by
  unfold Attributes.setitem
  cases hc : (v.truthy && isDateKey k) with
  | false =>
    rw [if_neg (by simp)]
    rfl
  | true =>
    rw [Bool.and_eq_true] at hc
    obtain ⟨d, rfl⟩ := h hc.1 hc.2
    rw [if_pos rfl]
    rfl

theorem updateA_typed (ext : ExtSvc) (ps : List (Text × Value)) (acc : Attributes)
    (htyped : ∀ p ∈ ps, p.2.truthy = true → isDateKey p.1 = true →
      ∃ d, p.2 = Value.date d) :
    Attributes.updateA ext acc ps =
      Except.ok (ps.foldl (fun m p => setD m p.1 p.2) acc) := by
  induction ps generalizing acc with
  | nil => rfl
  | cons q qs ih =>
    unfold Attributes.updateA at ih ⊢
    rw [List.foldlM_cons, setitem_typed ext acc q.1 q.2 (htyped q (List.mem_cons_self _ _)),
      List.foldl_cons]
    have hqs : ∀ p ∈ qs, p.2.truthy = true → isDateKey p.1 = true → ∃ d, p.2 = Value.date d :=
      fun p hp => htyped p (List.mem_cons_of_mem _ hp)
    exact ih (setD acc q.1 q.2) hqs

theorem toYamlDict_classify (a : Attributes) :
    (∃ d, Attributes.toYamlDict a = Except.ok d) ∨
      Attributes.toYamlDict a = Except.error Err.attributeError := by
  induction a with
  | nil => exact Or.inl ⟨[], rfl⟩
  | cons q qs ih =>
    unfold Attributes.toYamlDict at ih ⊢
    rw [List.mapM_cons]
    cases hc : (q.2.truthy && isDateKey q.1) with
    | false =>
      rw [if_neg (by simp)]
      rcases ih with ⟨d, hd⟩ | hd
      · rw [hd]; exact Or.inl ⟨q :: d, rfl⟩
      · rw [hd]; exact Or.inr rfl
    | true =>
      rw [if_pos rfl]
      cases q2 : q.2 with
      | date d =>
        rcases ih with ⟨dd, hd⟩ | hd
        · rw [hd]; exact Or.inl ⟨(q.1, Value.str (renderDate d)) :: dd, rfl⟩
        · rw [hd]; exact Or.inr rfl
      | pyNone => exact Or.inr rfl
      | bool b => exact Or.inr rfl
      | int n => exact Or.inr rfl
      | str s => exact Or.inr rfl
      | vlist xs => exact Or.inr rfl
      | dict xs => exact Or.inr rfl
      | noCompare => exact Or.inr rfl

/-- C3: for every attribute map `a` and key `k` not stored in `a`, the
lookup `a[k]` never raises and returns the `NoCompare` sentinel, and every
relational comparison of that sentinel against any non-absent value
(equality, inequality, less-than, greater-than, less-or-equal,
greater-or-equal) evaluates to false. -/
theorem c3_absent_semantics (a : Attributes) (k : Text)
    (h : getD? a k = Option.none) :
    Attributes.getitem a k = Value.noCompare ∧
    ∀ (op : CmpOp) (x : Value), x ≠ Value.noCompare → noCompareRel op x = false := by
  constructor
  · unfold Attributes.getitem
    rw [h]
  · intro op x _
    cases op <;> rfl

/-- Witness for C3 at the fresh map and the key `test` the test suite
uses. -/
theorem c3_absent_semantics_witness :
    getD? ([] : Attributes) (txt "test") = Option.none ∧
    (Attributes.getitem ([] : Attributes) (txt "test") = Value.noCompare ∧
     ∀ (op : CmpOp) (x : Value), x ≠ Value.noCompare → noCompareRel op x = false) :=
  ⟨rfl, c3_absent_semantics [] (txt "test") rfl⟩

/-! ## Claim C4 -/

/-- C4 counterexample: the empty string cannot be parsed as a date, yet
assigning it to the date-coerced key `due_date` does not raise
`ParseError` — it is falsy, so coercion is skipped and it is stored
unchanged.  This refutes the claim that setting a date-coerced key to an
unparsable string always fails. -/
theorem c4_counterexample :
    extC.parse_date (txt "") = Option.none ∧
    Attributes.setitem extC [] (txt "due_date") (Value.str (txt "")) =
      Except.ok [(txt "due_date", Value.str (txt ""))] :=
  ⟨rfl, rfl⟩

/-- C4 (amended): for every key matching the date rule, setting it to a
*nonempty* string the date service parses stores the parsed `DateLike`;
setting it to a *nonempty* string the service cannot parse raises
`ParseError`; and setting a key not matching the rule stores the assigned
value unchanged (the empty string is falsy and is stored unchanged — see
C9). -/
theorem c4_date_coercion :
    (∀ (ext : ExtSvc) (a : Attributes) (k s : Text) (d : DateLike),
      isDateKey k = true → s ≠ [] → ext.parse_date s = some d →
      Attributes.setitem ext a k (Value.str s) = Except.ok (setD a k (Value.date d))) ∧
    (∀ (ext : ExtSvc) (a : Attributes) (k s : Text),
      isDateKey k = true → s ≠ [] → ext.parse_date s = Option.none →
      Attributes.setitem ext a k (Value.str s) = Except.error Err.parseError) ∧
    (∀ (ext : ExtSvc) (a : Attributes) (k : Text) (v : Value),
      isDateKey k = false →
      Attributes.setitem ext a k v = Except.ok (setD a k v)) := by
  refine ⟨?_, ?_, ?_⟩
  · intro ext a k s d hk hs hp
    unfold Attributes.setitem
    have ht : (Value.str s).truthy = true := by
      simp [Value.truthy, List.isEmpty_iff, hs]
    rw [if_pos (by rw [Bool.and_eq_true]; exact ⟨ht, hk⟩)]
    show (match superDate ext (Value.str s) with
      | some v' => pure (setD a k v')
      | Option.none => throw Err.parseError : Except Err Attributes) = _
    rw [show superDate ext (Value.str s) = Option.map Value.date (ext.parse_date s) from rfl,
      hp]
    rfl
  · intro ext a k s hk hs hp
    unfold Attributes.setitem
    have ht : (Value.str s).truthy = true := by
      simp [Value.truthy, List.isEmpty_iff, hs]
    rw [if_pos (by rw [Bool.and_eq_true]; exact ⟨ht, hk⟩)]
    show (match superDate ext (Value.str s) with
      | some v' => pure (setD a k v')
      | Option.none => throw Err.parseError : Except Err Attributes) = _
    rw [show superDate ext (Value.str s) = Option.map Value.date (ext.parse_date s) from rfl,
      hp]
    rfl
  · intro ext a k v hk
    unfold Attributes.setitem
    rw [if_neg (by rw [hk, Bool.and_false]; exact Bool.false_ne_true)]
    rfl

/-- Witness for C4 (amended) at the key `due_date` with the parseable
string `today`, the unparsable string `garbage`, and the non-date key
`name`. -/
theorem c4_date_coercion_witness :
    Attributes.setitem extC [] (txt "due_date") (Value.str (txt "today")) =
      Except.ok [(txt "due_date", Value.date dC)] ∧
    Attributes.setitem extC [] (txt "due_date") (Value.str (txt "garbage")) =
      Except.error Err.parseError ∧
    Attributes.setitem extC [] (txt "name") (Value.str (txt "today")) =
      Except.ok [(txt "name", Value.str (txt "today"))] :=
  ⟨c4_date_coercion.1 extC [] (txt "due_date") (txt "today") dC (by decide)
      (by decide) rfl,
   c4_date_coercion.2.1 extC [] (txt "due_date") (txt "garbage") (by decide)
      (by decide) rfl,
   c4_date_coercion.2.2 extC [] (txt "name") (Value.str (txt "today")) (by decide)⟩

/-! ## Claim C9 -/

/-- C9: assigning a falsy value to a date-coerced key skips date coercion
entirely — the value is stored unchanged for every date service, and no
error is raised. -/
theorem c9_falsy_skips_coercion (ext : ExtSvc) (a : Attributes) (k : Text)
    (v : Value) (_hk : isDateKey k = true) (hv : v.truthy = false) :
    Attributes.setitem ext a k v = Except.ok (setD a k v) := by
  unfold Attributes.setitem
  rw [if_neg (by rw [hv, Bool.false_and]; exact Bool.false_ne_true)]
  rfl

/-- Witness for C9: the empty string on `due_date` is stored unchanged. -/
theorem c9_falsy_skips_coercion_witness :
    Attributes.setitem extC [] (txt "due_date") (Value.str []) =
      Except.ok [(txt "due_date", Value.str [])] :=
  c9_falsy_skips_coercion extC [] (txt "due_date") (Value.str []) (by decide) rfl

/-! ## Claim C6 -/

/-- C6: unpacking the empty string yields an empty list for both dialects,
and decoding any empty or all-whitespace string yields a zettel with
empty title, no headings, and only the default `creation_date` (today)
and `zlinks` (empty mapping) attributes. -/
theorem c6_empty_input (ext : ExtSvc) (s : Text) (h : stripT s = []) :
    str_to_zettels ext [] (txt "md") = Except.ok [] ∧
    str_to_zettels ext [] (txt "rst") = Except.ok [] ∧
    Zettel.createFromMd ext s = Except.ok
      ⟨[], [], [(txt "creation_date", Value.date ext.today),
        (txt "zlinks", Value.dict [])]⟩ ∧
    Zettel.createFromRst ext s = Except.ok
      ⟨[], [], [(txt "creation_date", Value.date ext.today),
        (txt "zlinks", Value.dict [])]⟩ := by
  refine ⟨rfl, rfl, ?_, ?_⟩
  · unfold Zettel.createFromMd
    rw [h]
    rfl
  · unfold Zettel.createFromRst
    rw [h]
    rfl

/-- Witness for C6 at the all-whitespace string `" \n"`. -/
theorem c6_empty_input_witness :
    stripT (txt " \n") = [] ∧
    (str_to_zettels extC [] (txt "md") = Except.ok [] ∧
     str_to_zettels extC [] (txt "rst") = Except.ok [] ∧
     Zettel.createFromMd extC (txt " \n") = Except.ok
       ⟨[], [], [(txt "creation_date", Value.date extC.today),
         (txt "zlinks", Value.dict [])]⟩ ∧
     Zettel.createFromRst extC (txt " \n") = Except.ok
       ⟨[], [], [(txt "creation_date", Value.date extC.today),
         (txt "zlinks", Value.dict [])]⟩) :=
  ⟨rfl, c6_empty_input extC (txt " \n") rfl⟩

/-! ## Claim C2 -/

/-- C2 counterexample: the concrete scenario text decodes successfully,
but re-encoding the decoded zettel does not reproduce the text
byte-for-byte — the emitted attribute block additionally lists the
defaulted `creation_date` and `zlinks`. -/
theorem c2_counterexample :
    okB (Zettel.createFromMd extC c2Text) = true ∧
    okText (Zettel.getMd extC (okZettel (Zettel.createFromMd extC c2Text)) []) ≠ c2Text :=
  ⟨rfl, by decide⟩

/-- C2 (amended): decoding the scenario text yields title `my title`,
headings exactly `{_notes: "\ncontent\n"}`, and attributes
`greeting: "hello"` plus the defaulted `creation_date` and `zlinks`;
re-encoding reproduces the same text except that the attribute block also
lists the defaulted `creation_date` and `zlinks`, keys in sorted order. -/
theorem c2_concrete_scenario :
    Zettel.createFromMd extC c2Text = Except.ok
      ⟨txt "my title", [(txt "_notes", txt "\ncontent\n")],
       [(txt "greeting", Value.str (txt "hello")),
        (txt "creation_date", Value.date dC), (txt "zlinks", Value.dict [])]⟩ ∧
    Zettel.getMd extC
      ⟨txt "my title", [(txt "_notes", txt "\ncontent\n")],
       [(txt "greeting", Value.str (txt "hello")),
        (txt "creation_date", Value.date dC), (txt "zlinks", Value.dict [])]⟩ [] =
      Except.ok (txt "# my title\n\ncontent\n\n<!--- attributes --->\n    ---\n    creation_date: 2022-04-19, Tue\n    greeting: hello\n    zlinks: {}\n") :=
  ⟨rfl, rfl⟩

/-! ## Claim C10 -/

theorem exceptOk_bind {α β : Type} (a : α) (f : α → Except Err β) :
    (Except.ok a >>= f) = f a := rfl

theorem exceptErr_bind {α β : Type} (e : Err) (f : α → Except Err β) :
    ((Except.error e : Except Err α) >>= f) = Except.error e := rfl

theorem strA_classify (ext : ExtSvc) (a : Attributes) :
    (∃ t, Attributes.strA ext a = Except.ok t) ∨
      Attributes.strA ext a = Except.error Err.attributeError := by
  rcases toYamlDict_classify a with ⟨d, hd⟩ | hd
  · exact Or.inl ⟨txt "---\n" ++ ext.ydump d, by unfold Attributes.strA; rw [hd]; rfl⟩
  · exact Or.inr (by unfold Attributes.strA; rw [hd]; rfl)

theorem mdPrefix_classify (z : Zettel) (hs : List Text) :
    (∃ s, mdPrefix z hs = Except.ok s) ∨
      (mdPrefix z hs = Except.error Err.keyError ∧
        hs.contains (txt "_notes") = true ∧
        getD? z.headings (txt "_notes") = Option.none) := by
  unfold mdPrefix
  cases hc : hs.contains (txt "_notes") with
  | false =>
    rw [if_neg (by simp)]
    exact Or.inl ⟨_, rfl⟩
  | true =>
    rw [if_pos rfl]
    cases hg : getD? z.headings (txt "_notes") with
    | none => exact Or.inr ⟨rfl, rfl, rfl⟩
    | some nv => exact Or.inl ⟨_, rfl⟩

theorem rstPrefix_classify (z : Zettel) (hs : List Text) :
    (∃ s, rstPrefix z hs = Except.ok s) ∨
      (rstPrefix z hs = Except.error Err.keyError ∧
        hs.contains (txt "_notes") = true ∧
        getD? z.headings (txt "_notes") = Option.none) := by
  unfold rstPrefix
  cases hc : hs.contains (txt "_notes") with
  | false =>
    rw [if_neg (by simp)]
    exact Or.inl ⟨_, rfl⟩
  | true =>
    rw [if_pos rfl]
    cases hg : getD? z.headings (txt "_notes") with
    | none => exact Or.inr ⟨rfl, rfl, rfl⟩
    | some nv => exact Or.inl ⟨_, rfl⟩

theorem getMd_keyError_iff (ext : ExtSvc) (z : Zettel) (headings : List Text) :
    Zettel.getMd ext z headings = Except.error Err.keyError ↔
      ((displayHeadings z headings).contains (txt "_notes") = true ∧
        getD? z.headings (txt "_notes") = Option.none) := by
  constructor
  · intro hEq
    rcases mdPrefix_classify z (displayHeadings z headings) with ⟨s, hok⟩ | ⟨_, hc, hg⟩
    · exfalso
      simp only [Zettel.getMd] at hEq
      rw [hok, exceptOk_bind] at hEq
      rcases strA_classify ext z.attrs with ⟨t, hst⟩ | hst
      · rw [hst, exceptOk_bind] at hEq
        exact Except.noConfusion hEq
      · rw [hst, exceptErr_bind] at hEq
        exact absurd (Except.error.inj hEq) (by intro h; cases h)
    · exact ⟨hc, hg⟩
  · rintro ⟨hc, hg⟩
    have hpre : mdPrefix z (displayHeadings z headings) = Except.error Err.keyError := by
      unfold mdPrefix
      rw [if_pos hc, hg]
      rfl
    simp only [Zettel.getMd]
    rw [hpre, exceptErr_bind]

theorem getRst_keyError_iff (ext : ExtSvc) (z : Zettel) (headings : List Text) :
    Zettel.getRst ext z headings = Except.error Err.keyError ↔
      ((displayHeadings z headings).contains (txt "_notes") = true ∧
        getD? z.headings (txt "_notes") = Option.none) := by
  constructor
  · intro hEq
    rcases rstPrefix_classify z (displayHeadings z headings) with ⟨s, hok⟩ | ⟨_, hc, hg⟩
    · exfalso
      simp only [Zettel.getRst] at hEq
      rw [hok, exceptOk_bind] at hEq
      rcases strA_classify ext z.attrs with ⟨t, hst⟩ | hst
      · rw [hst, exceptOk_bind] at hEq
        exact Except.noConfusion hEq
      · rw [hst, exceptErr_bind] at hEq
        exact absurd (Except.error.inj hEq) (by intro h; cases h)
    · exact ⟨hc, hg⟩
  · rintro ⟨hc, hg⟩
    have hpre : rstPrefix z (displayHeadings z headings) = Except.error Err.keyError := by
      unfold rstPrefix
      rw [if_pos hc, hg]
      rfl
    simp only [Zettel.getRst]
    rw [hpre, exceptErr_bind]

theorem displayContains_nil_iff (z : Zettel) :
    (displayHeadings z []).contains (txt "_notes") = true ↔
      ∃ k ∈ keysD z.headings, lowerT k = txt "_notes" := by
  have hd : displayHeadings z [] = (keysD z.headings).map lowerT := rfl
  rw [hd]
  rw [List.contains, List.elem_iff, List.mem_map]

theorem displayContains_filter_iff (z : Zettel) (f : List Text) (hne : f ≠ []) :
    (displayHeadings z f).contains (txt "_notes") = true ↔
      ∃ x ∈ f, lowerT x = txt "_notes" := by
  have hd : displayHeadings z f = f.map lowerT := by
    unfold displayHeadings
    rw [if_neg (by rw [List.isEmpty_iff]; exact hne)]
  rw [hd]
  rw [List.contains, List.elem_iff, List.mem_map]

/-- C10 counterexample: a zettel storing the heading `_NOTES` (and no
literal `_notes`), encoded with *no* filter, raises `KeyError` in both
encoders — refuting the claim that encoding without a filter never hits
the unguarded `self.headings['_notes']` lookup. -/
theorem c10_counterexample :
    Zettel.getMd extC zUpperNotes [] = Except.error Err.keyError ∧
    Zettel.getRst extC zUpperNotes [] = Except.error Err.keyError :=
  ⟨rfl, rfl⟩

/-- C10 (amended): if the caller-supplied headings filter contains
`_notes` in any letter case but no literal `_notes` heading is stored,
`getMd` and `getRst` raise `KeyError`; with no filter supplied, they
raise `KeyError` exactly when some stored heading name lowercases to
`_notes` while the literal `_notes` key is absent (so encoding without a
filter never raises this error when every stored name that lowercases to
`_notes` is `_notes` itself). -/
theorem c10_notes_filter_keyerror :
    (∀ (ext : ExtSvc) (z : Zettel) (f : List Text),
      (∃ x ∈ f, lowerT x = txt "_notes") →
      txt "_notes" ∉ keysD z.headings →
      Zettel.getMd ext z f = Except.error Err.keyError ∧
      Zettel.getRst ext z f = Except.error Err.keyError) ∧
    (∀ (ext : ExtSvc) (z : Zettel),
      (Zettel.getMd ext z [] = Except.error Err.keyError ↔
        ((∃ k ∈ keysD z.headings, lowerT k = txt "_notes") ∧
          txt "_notes" ∉ keysD z.headings)) ∧
      (Zettel.getRst ext z [] = Except.error Err.keyError ↔
        ((∃ k ∈ keysD z.headings, lowerT k = txt "_notes") ∧
          txt "_notes" ∉ keysD z.headings))) := by
  constructor
  · intro ext z f hf hn
    have hne : f ≠ [] := by
      rintro rfl
      rcases hf with ⟨x, hx, _⟩
      exact List.not_mem_nil x hx
    have hc : (displayHeadings z f).contains (txt "_notes") = true :=
      (displayContains_filter_iff z f hne).mpr hf
    have hg : getD? z.headings (txt "_notes") = Option.none :=
      (getD?_eq_none_iff _ _).mpr hn
    exact ⟨(getMd_keyError_iff ext z f).mpr ⟨hc, hg⟩,
      (getRst_keyError_iff ext z f).mpr ⟨hc, hg⟩⟩
  · intro ext z
    constructor
    · rw [getMd_keyError_iff, displayContains_nil_iff, getD?_eq_none_iff]
    · rw [getRst_keyError_iff, displayContains_nil_iff, getD?_eq_none_iff]

/-- Witness for C10 (amended) at a zettel with no headings and the filter
`["_Notes"]`, and at the `_NOTES` zettel with no filter. -/
theorem c10_notes_filter_keyerror_witness :
    (Zettel.getMd extC zDouble [txt "_Notes"] = Except.error Err.keyError ∧
     Zettel.getRst extC zDouble [txt "_Notes"] = Except.error Err.keyError) ∧
    (Zettel.getMd extC zUpperNotes [] = Except.error Err.keyError ↔
      ((∃ k ∈ keysD zUpperNotes.headings, lowerT k = txt "_notes") ∧
        txt "_notes" ∉ keysD zUpperNotes.headings)) :=
  ⟨c10_notes_filter_keyerror.1 extC zDouble [txt "_Notes"]
      ⟨txt "_Notes", List.mem_singleton.mpr rfl, by decide⟩ (by decide),
   (c10_notes_filter_keyerror.2 extC zUpperNotes).1⟩

/-! ## Claim C8 -/

theorem getD?_delD_none {α : Type} (m : List (Text × α)) (h k : Text)
    (hm : getD? m k = Option.none) : getD? (delD m h) k = Option.none := by
  by_cases hkh : k = h
  · rw [hkh]
    exact getD?_delD_self m h
  · rw [getD?_delD_ne m h k hkh]
    exact hm

theorem getD?_foldl_del_mono {α : Type} (K : List Text) (exp : List Text)
    (m : List (Text × α)) (k : Text) (hm : getD? m k = Option.none) :
    getD? (exp.foldl (fun m h =>
        if !K.contains h && (keysD m).contains h then delD m h else m) m) k =
      Option.none := by
  induction exp generalizing m with
  | nil => exact hm
  | cons h exp' ih =>
    rw [List.foldl_cons]
    apply ih
    by_cases hstep : (!K.contains h && (keysD m).contains h) = true
    · rw [if_pos hstep]
      exact getD?_delD_none m h k hm
    · rw [if_neg hstep]
      exact hm

theorem getD?_foldl_del_keep {α : Type} (K : List Text) (exp : List Text)
    (m : List (Text × α)) (k : Text) (h : k ∉ exp ∨ K.contains k = true) :
    getD? (exp.foldl (fun m h =>
        if !K.contains h && (keysD m).contains h then delD m h else m) m) k =
      getD? m k := by
  induction exp generalizing m with
  | nil => rfl
  | cons hd exp' ih =>
    rw [List.foldl_cons]
    have hrec : k ∉ exp' ∨ K.contains k = true := by
      rcases h with h1 | h2
      · exact Or.inl (fun hx => h1 (List.mem_cons_of_mem _ hx))
      · exact Or.inr h2
    rw [ih _ hrec]
    by_cases hstep : (!K.contains hd && (keysD m).contains hd) = true
    · rw [if_pos hstep]
      have hkh : k ≠ hd := by
        rcases h with h1 | h2
        · exact fun he => h1 (he ▸ List.mem_cons_self _ _)
        · intro he
          rw [Bool.and_eq_true, Bool.not_eq_true'] at hstep
          rw [he] at h2
          rw [h2] at hstep
          exact Bool.noConfusion hstep.1
      exact getD?_delD_ne m hd k hkh
    · rw [if_neg hstep]

theorem getD?_foldl_del_none {α : Type} (K : List Text) (exp : List Text)
    (m : List (Text × α)) (k : Text) (hk : k ∈ exp) (hK : K.contains k = false) :
    getD? (exp.foldl (fun m h =>
        if !K.contains h && (keysD m).contains h then delD m h else m) m) k =
      Option.none := by
  induction exp generalizing m with
  | nil => exact absurd hk (List.not_mem_nil k)
  | cons h exp' ih =>
    rw [List.foldl_cons]
    by_cases hke : k ∈ exp'
    · exact ih _ hke
    · have hkh : k = h := by
        rcases List.mem_cons.mp hk with h1 | h2
        · exact h1
        · exact absurd h2 hke
      apply getD?_foldl_del_mono
      subst hkh
      by_cases hc : (keysD m).contains k = true
      · rw [if_pos (by rw [Bool.and_eq_true, Bool.not_eq_true']; exact ⟨hK, hc⟩)]
        exact getD?_delD_self m k
      · rw [if_neg (by rw [Bool.and_eq_true]; rintro ⟨_, h2⟩; exact hc h2)]
        exact (getD?_eq_none_iff m k).mpr (fun hm => hc ((contains_keysD_iff m k).mpr hm))

/-- C8: `Zettel.update` replaces the title and attributes wholesale with
the new zettel's while preserving the original `creation_date`; when a
nonempty `exp_headings` is supplied, every heading named there that is
absent from the new zettel is deleted, headings not named there are left
untouched, and all headings of the new zettel are merged in; when
`exp_headings` is empty/absent, the heading map is replaced entirely.
(The hypotheses are the invariants construction establishes: the stored
`creation_date` is a date, truthy date-key values of the new attributes
are dates, and the new zettel's keys are duplicate-free.) -/
theorem c8_update_semantics (ext : ExtSvc) (self new_zettel : Zettel)
    (exp_headings : List Text) (d0 : DateLike)
    (hcd : Attributes.getitem self.attrs (txt "creation_date") = Value.date d0)
    (htyped : ∀ p ∈ new_zettel.attrs, p.2.truthy = true → isDateKey p.1 = true →
      ∃ d, p.2 = Value.date d)
    (hand : (keysD new_zettel.attrs).Nodup)
    (hhnd : (keysD new_zettel.headings).Nodup) :
    ∃ z', Zettel.update ext self new_zettel exp_headings = Except.ok z' ∧
      z'.title = new_zettel.title ∧
      z'.attrs = setD new_zettel.attrs (txt "creation_date") (Value.date d0) ∧
      getD? z'.attrs (txt "creation_date") = some (Value.date d0) ∧
      (∀ k, k ≠ txt "creation_date" →
        getD? z'.attrs k = getD? new_zettel.attrs k) ∧
      (exp_headings = [] → z'.headings = new_zettel.headings) ∧
      (∀ k ∈ exp_headings, k ∉ keysD new_zettel.headings →
        getD? z'.headings k = Option.none) ∧
      (∀ k, k ∉ exp_headings → k ∉ keysD new_zettel.headings →
        exp_headings ≠ [] → getD? z'.headings k = getD? self.headings k) ∧
      (∀ k ∈ keysD new_zettel.headings,
        getD? z'.headings k = getD? new_zettel.headings k) := by
  have hupAttrs : Attributes.updateA ext [] new_zettel.attrs =
      Except.ok new_zettel.attrs := by
    rw [updateA_typed ext new_zettel.attrs [] htyped,
      foldl_setD_disjoint new_zettel.attrs [] hand
        (fun k _ hk => List.not_mem_nil k hk),
      List.nil_append]
  have hsetCd : Attributes.setitem ext new_zettel.attrs (txt "creation_date")
      (Value.date d0) = Except.ok
        (setD new_zettel.attrs (txt "creation_date") (Value.date d0)) :=
    setitem_typed ext new_zettel.attrs (txt "creation_date") (Value.date d0)
      (fun _ _ => ⟨d0, rfl⟩)
  have hupd : Zettel.update ext self new_zettel exp_headings = Except.ok
      ⟨new_zettel.title,
        (if exp_headings.isEmpty then new_zettel.headings
         else new_zettel.headings.foldl (fun m p => setD m p.1 p.2)
          (exp_headings.foldl (fun m h =>
            if !(keysD new_zettel.headings).contains h && (keysD m).contains h
            then delD m h else m) self.headings)),
        setD new_zettel.attrs (txt "creation_date") (Value.date d0)⟩ := by
    simp only [Zettel.update]
    rw [hcd, hupAttrs, exceptOk_bind, hsetCd, exceptOk_bind]
    rfl
  refine ⟨_, hupd, rfl, rfl, getD?_setD_self _ _ _,
    (fun k hk => getD?_setD_ne _ _ _ _ hk), ?_, ?_, ?_, ?_⟩
  · intro he
    simp only [he, List.isEmpty_nil, if_true]
  · intro k hk hknew
    have hne : exp_headings ≠ [] := by
      rintro rfl
      exact List.not_mem_nil k hk
    rw [if_neg (show ¬(exp_headings.isEmpty = true) by
      rw [List.isEmpty_iff]; exact hne)]
    rw [foldl_setD_not_mem new_zettel.headings _ k hknew]
    exact getD?_foldl_del_none (keysD new_zettel.headings) exp_headings
      self.headings k hk (by
        rw [Bool.eq_false_iff]
        intro hc
        exact hknew ((contains_keysD_iff _ _).mp hc))
  · intro k hk hknew hne
    rw [if_neg (show ¬(exp_headings.isEmpty = true) by
      rw [List.isEmpty_iff]; exact hne)]
    rw [foldl_setD_not_mem new_zettel.headings _ k hknew]
    exact getD?_foldl_del_keep (keysD new_zettel.headings) exp_headings
      self.headings k (Or.inl hk)
  · intro k hk
    cases hemp : exp_headings.isEmpty with
    | true =>
      rw [if_pos rfl]
    | false =>
      have hne : ¬(exp_headings.isEmpty = true) := by
        rw [hemp]
        exact Bool.false_ne_true
      simp only [if_neg hne]
      exact foldl_setD_mem new_zettel.headings _ k hhnd hk

/-- Witness for C8: update a zettel holding headings `_notes`, `Keep`,
`Drop` from a new zettel carrying only `Keep`, with
`exp_headings = [Drop, Keep]`. -/
theorem c8_update_semantics_witness :
    ∃ z', Zettel.update extC
        ⟨txt "old",
         [(txt "_notes", txt "n"), (txt "Keep", txt "k"), (txt "Drop", txt "d")],
         [(txt "creation_date", Value.date dC), (txt "zlinks", Value.dict [])]⟩
        ⟨txt "new", [(txt "Keep", txt "k2")],
         [(txt "creation_date", Value.date dC2), (txt "zlinks", Value.dict [])]⟩
        [txt "Drop", txt "Keep"] = Except.ok z' ∧
      z'.title = txt "new" ∧
      z'.attrs = setD [(txt "creation_date", Value.date dC2), (txt "zlinks", Value.dict [])]
        (txt "creation_date") (Value.date dC) ∧
      getD? z'.attrs (txt "creation_date") = some (Value.date dC) ∧
      (∀ k, k ≠ txt "creation_date" →
        getD? z'.attrs k =
          getD? [(txt "creation_date", Value.date dC2), (txt "zlinks", Value.dict [])] k) ∧
      ([txt "Drop", txt "Keep"] = ([] : List Text) →
        z'.headings = [(txt "Keep", txt "k2")]) ∧
      (∀ k ∈ [txt "Drop", txt "Keep"], k ∉ keysD [(txt "Keep", txt "k2")] →
        getD? z'.headings k = Option.none) ∧
      (∀ k, k ∉ [txt "Drop", txt "Keep"] → k ∉ keysD [(txt "Keep", txt "k2")] →
        [txt "Drop", txt "Keep"] ≠ ([] : List Text) →
        getD? z'.headings k =
          getD? [(txt "_notes", txt "n"), (txt "Keep", txt "k"), (txt "Drop", txt "d")] k) ∧
      (∀ k ∈ keysD [(txt "Keep", txt "k2")],
        getD? z'.headings k = getD? [(txt "Keep", txt "k2")] k) :=
  c8_update_semantics extC
    ⟨txt "old",
     [(txt "_notes", txt "n"), (txt "Keep", txt "k"), (txt "Drop", txt "d")],
     [(txt "creation_date", Value.date dC), (txt "zlinks", Value.dict [])]⟩
    ⟨txt "new", [(txt "Keep", txt "k2")],
     [(txt "creation_date", Value.date dC2), (txt "zlinks", Value.dict [])]⟩
    [txt "Drop", txt "Keep"] dC rfl
    (by
      intro p hp h1 h2
      rcases List.mem_cons.mp hp with rfl | hp2
      · exact ⟨dC2, rfl⟩
      · rcases List.mem_singleton.mp hp2 with rfl
        exact absurd h1 (by decide))
    (by decide) (by decide)

/-! ## Claim C7 -/

theorem splitOnGo_nil (sep : Text) (f : Nat) : splitOnGo sep f [] = [[]] := by
  cases f <;> rfl

theorem splitOnGo_succ (sep : Text) (f : Nat) (c : Char) (t : Text) :
    splitOnGo sep (f + 1) (c :: t) =
      if sep ≠ [] ∧ startsWithT sep (c :: t) then
        [] :: splitOnGo sep f ((c :: t).drop sep.length)
      else
        match splitOnGo sep f t with
        | [] => [[c]]
        | h :: rest => (c :: h) :: rest := rfl

theorem splitOnGo_fuel (sep : Text) (f1 : Nat) :
    ∀ (f2 : Nat) (t : Text), t.length ≤ f1 → t.length ≤ f2 →
      splitOnGo sep f1 t = splitOnGo sep f2 t := by
  induction f1 with
  | zero =>
    intro f2 t h1 _
    have ht : t = [] := List.eq_nil_of_length_eq_zero (Nat.le_zero.mp h1)
    subst ht
    rw [splitOnGo_nil, splitOnGo_nil]
  | succ f1' ih =>
    intro f2 t h1 h2
    cases t with
    | nil => rw [splitOnGo_nil, splitOnGo_nil]
    | cons c t' =>
      cases f2 with
      | zero => simp at h2
      | succ f2' =>
        rw [splitOnGo_succ, splitOnGo_succ]
        simp only [List.length_cons] at h1 h2
        by_cases hc : sep ≠ [] ∧ startsWithT sep (c :: t') = true
        · rw [if_pos hc, if_pos hc]
          have hsep : 1 ≤ sep.length := by
            cases hms : sep with
            | nil => exact absurd hms hc.1
            | cons x xs => simp
          have hdl : ((c :: t').drop sep.length).length ≤ f1' := by
            simp only [List.length_drop, List.length_cons]
            omega
          have hdl2 : ((c :: t').drop sep.length).length ≤ f2' := by
            simp only [List.length_drop, List.length_cons]
            omega
          rw [ih f2' _ hdl hdl2]
        · rw [if_neg hc, if_neg hc]
          rw [ih f2' t' (by omega) (by omega)]

theorem splitOnL_nil (sep : Text) : splitOnL sep [] = [[]] := by
  unfold splitOnL
  exact splitOnGo_nil sep 0

theorem splitOnL_cons (sep : Text) (c : Char) (t : Text) :
    splitOnL sep (c :: t) =
      if sep ≠ [] ∧ startsWithT sep (c :: t) then
        [] :: splitOnL sep ((c :: t).drop sep.length)
      else
        match splitOnL sep t with
        | [] => [[c]]
        | h :: rest => (c :: h) :: rest := by
  show splitOnGo sep (t.length + 1) (c :: t) = _
  rw [splitOnGo_succ]
  by_cases hc : sep ≠ [] ∧ startsWithT sep (c :: t) = true
  · rw [if_pos hc, if_pos hc]
    have hsep : 1 ≤ sep.length := by
      cases hms : sep with
      | nil => exact absurd hms hc.1
      | cons x xs => simp
    have h1 : ((c :: t).drop sep.length).length ≤ t.length := by
      simp only [List.length_drop, List.length_cons]
      omega
    rw [splitOnGo_fuel sep t.length ((c :: t).drop sep.length).length _ h1 le_rfl]
    rfl
  · rw [if_neg hc, if_neg hc]
    rfl

theorem intercalate_single (sep x : Text) : List.intercalate sep [x] = x := by
  simp [List.intercalate]

theorem intercalate_cons2 (sep x y : Text) (r : List Text) :
    List.intercalate sep (x :: y :: r) = x ++ sep ++ List.intercalate sep (y :: r) := by
  simp [List.intercalate, List.intersperse]

theorem intercalate_cons_head (sep : Text) (c : Char) (p : Text) (ps : List Text)
    (hps : ps ≠ []) :
    List.intercalate sep ((c :: p) :: ps) = c :: List.intercalate sep (p :: ps) := by
  cases ps with
  | nil => exact absurd rfl hps
  | cons q qs =>
    rw [intercalate_cons2, intercalate_cons2]
    rfl

theorem startsWithT_iff (p t : Text) : startsWithT p t = true ↔ ∃ r, t = p ++ r := by
  induction p generalizing t with
  | nil =>
    exact ⟨fun _ => ⟨t, rfl⟩, fun _ => rfl⟩
  | cons pc pr ih =>
    cases t with
    | nil =>
      simp only [startsWithT]
      constructor
      · intro hcontra
        exact absurd hcontra (by simp)
      · rintro ⟨r, hr⟩
        exact absurd hr (by simp)
    | cons tc tr =>
      simp only [startsWithT, Bool.and_eq_true, beq_iff_eq, ih]
      constructor
      · rintro ⟨rfl, r, rfl⟩
        exact ⟨r, rfl⟩
      · rintro ⟨r, hr⟩
        rw [List.cons_append] at hr
        injection hr with h1 h2
        exact ⟨h1.symm, r, h2⟩

theorem startsWithT_append (p r : Text) : startsWithT p (p ++ r) = true :=
  (startsWithT_iff p (p ++ r)).mpr ⟨r, rfl⟩

theorem containsSub_tail_false (m : Text) (c : Char) (t : Text)
    (h : containsSub m (c :: t) = false) : containsSub m t = false := by
  have : containsSub m (c :: t) =
      (startsWithT m (c :: t) || containsSub m t) := rfl
  rw [this, Bool.or_eq_false_iff] at h
  exact h.2

theorem containsSub_head_false (m t : Text) (h : containsSub m t = false) :
    startsWithT m t = false := by
  cases t with
  | nil => exact h
  | cons c t' =>
    have : containsSub m (c :: t') =
        (startsWithT m (c :: t') || containsSub m t') := rfl
    rw [this, Bool.or_eq_false_iff] at h
    exact h.1

theorem splitOnL_noSub (m t : Text) (_hm : m ≠ []) (h : containsSub m t = false) :
    splitOnL m t = [t] := by
  induction t with
  | nil => exact splitOnL_nil m
  | cons c t' ih =>
    rw [splitOnL_cons]
    rw [if_neg (by
      rintro ⟨_, hsw⟩
      rw [containsSub_head_false m (c :: t') h] at hsw
      exact Bool.noConfusion hsw)]
    rw [ih (containsSub_tail_false m c t' h)]

theorem splitOnL_append_head (m b : Text) (hm : m ≠ []) :
    splitOnL m (m ++ b) = [] :: splitOnL m b := by
  cases hms : m with
  | nil => exact absurd rfl (hms ▸ hm)
  | cons mc mr =>
    have hshape : (mc :: mr) ++ b = mc :: (mr ++ b) := rfl
    rw [hshape, splitOnL_cons,
      if_pos ⟨List.cons_ne_nil mc mr,
        by rw [← hshape]; exact startsWithT_append (mc :: mr) b⟩]
    rw [show (mc :: (mr ++ b)).drop (mc :: mr).length = b from by
      rw [← hshape]; exact List.drop_left (mc :: mr) b]

theorem splitOnL_marker_aux (m : Text) (hm : m ≠ []) (hnb : noBorder m) :
    ∀ (n : Nat) (a b : Text), a.length ≤ n → containsSub m b = false →
      ∃ parts, parts ≠ [] ∧ splitOnL m (a ++ (m ++ b)) = parts ++ [b] ∧
        List.intercalate m parts = a := by
  intro n
  induction n with
  | zero =>
    intro a b ha hb
    have ha0 : a = [] := List.eq_nil_of_length_eq_zero (Nat.le_zero.mp ha)
    subst ha0
    rw [List.nil_append, splitOnL_append_head m b hm, splitOnL_noSub m b hm hb]
    exact ⟨[[]], List.cons_ne_nil _ _, rfl, intercalate_single m []⟩
  | succ n ih =>
    intro a b ha hb
    cases a with
    | nil =>
      rw [List.nil_append, splitOnL_append_head m b hm, splitOnL_noSub m b hm hb]
      exact ⟨[[]], List.cons_ne_nil _ _, rfl, intercalate_single m []⟩
    | cons c a' =>
      have hshape : (c :: a') ++ (m ++ b) = c :: (a' ++ (m ++ b)) := rfl
      have hsl : 1 ≤ m.length := by
        cases hms : m with
        | nil => exact absurd hms hm
        | cons x xs => simp
      by_cases hpre : startsWithT m ((c :: a') ++ (m ++ b)) = true
      · obtain ⟨r, hr⟩ := (startsWithT_iff m ((c :: a') ++ (m ++ b))).mp hpre
        by_cases hlen : m.length ≤ (c :: a').length
        · have ha2 : (c :: a').take m.length = m := by
            have h1 := congrArg (List.take m.length) hr
            rw [List.take_append_of_le_length hlen, List.take_left] at h1
            exact h1
          have hsplit : c :: a' = m ++ (c :: a').drop m.length := by
            conv_lhs => rw [← List.take_append_drop m.length (c :: a')]
            rw [ha2]
          have htext : (c :: a') ++ (m ++ b) =
              m ++ ((c :: a').drop m.length ++ (m ++ b)) := by
            conv_lhs => rw [hsplit]
            rw [List.append_assoc]
          have hlen2 : ((c :: a').drop m.length).length ≤ n := by
            simp only [List.length_drop, List.length_cons]
            simp only [List.length_cons] at ha
            omega
          obtain ⟨parts', hne, hsp, hint⟩ := ih ((c :: a').drop m.length) b hlen2 hb
          refine ⟨[] :: parts', List.cons_ne_nil _ _, ?_, ?_⟩
          · rw [htext, splitOnL_append_head m _ hm, hsp]
            rfl
          · cases parts' with
            | nil => exact absurd rfl hne
            | cons p ps =>
              rw [intercalate_cons2, List.nil_append, hint]
              exact hsplit.symm
        · exfalso
          push_neg at hlen
          have h1 : m.take (c :: a').length = c :: a' := by
            have h0 := congrArg (List.take (c :: a').length) hr
            rw [List.take_left, List.take_append_of_le_length (Nat.le_of_lt hlen)] at h0
            exact h0.symm
          have h2 : m ++ b = m.drop (c :: a').length ++ r := by
            have h0 := congrArg (List.drop (c :: a').length) hr
            rw [List.drop_left, List.drop_append_of_le_length (Nat.le_of_lt hlen)] at h0
            exact h0
          have hA : (m ++ b).take (m.length - (c :: a').length) =
              m.take (m.length - (c :: a').length) :=
            List.take_append_of_le_length (Nat.sub_le _ _)
          have hB : (m.drop (c :: a').length ++ r).take (m.length - (c :: a').length) =
              (m.drop (c :: a').length).take (m.length - (c :: a').length) :=
            List.take_append_of_le_length (by rw [List.length_drop])
          have hC : (m.drop (c :: a').length).take (m.length - (c :: a').length) =
              m.drop (c :: a').length :=
            List.take_of_length_le (by rw [List.length_drop])
          have h3 : m.take (m.length - (c :: a').length) = m.drop (c :: a').length := by
            rw [← hA, h2, hB, hC]
          have h4 : startsWithT (m.drop (c :: a').length) m = true := by
            apply (startsWithT_iff _ _).mpr
            refine ⟨m.drop (m.length - (c :: a').length), ?_⟩
            rw [← h3, List.take_append_drop]
          have h5 := hnb (c :: a').length hlen (by simp)
          rw [h5] at h4
          exact Bool.noConfusion h4
      · rw [hshape, splitOnL_cons, if_neg (fun hx => hpre hx.2)]
        have ha'len : a'.length ≤ n := by
          simp only [List.length_cons] at ha
          omega
        obtain ⟨parts', hne, hsp, hint⟩ := ih a' b ha'len hb
        cases parts' with
        | nil => exact absurd rfl hne
        | cons p ps =>
          refine ⟨(c :: p) :: ps, List.cons_ne_nil _ _, ?_, ?_⟩
          · rw [hsp]
            rfl
          · cases ps with
            | nil =>
              rw [intercalate_single]
              rw [intercalate_single] at hint
              rw [hint]
            | cons q qs =>
              rw [intercalate_cons_head m c p (q :: qs) (List.cons_ne_nil q qs), hint]

theorem splitAttrHeader_marker (m : Text) (hm : m ≠ []) (hnb : noBorder m)
    (a b : Text) (hb : containsSub m b = false) :
    splitAttrHeader m (a ++ (m ++ b)) = (a, b) := by
  obtain ⟨parts, hne, hsp, hint⟩ :=
    splitOnL_marker_aux m hm hnb a.length a b le_rfl hb
  simp only [splitAttrHeader]
  rw [hsp]
  have hlen2 : ¬((parts ++ [b]).length = 1) := by
    rw [List.length_append]
    cases parts with
    | nil => exact absurd rfl hne
    | cons x xs => simp
  rw [if_neg hlen2, List.dropLast_concat, hint]
  congr 1
  cases parts with
  | nil => exact absurd rfl hne
  | cons x xs => rw [List.getLastD_concat]

theorem splitAttrHeader_noSub (m t : Text) (hm : m ≠ []) (h : containsSub m t = false) :
    splitAttrHeader m t = (t, []) := by
  simp only [splitAttrHeader]
  rw [splitOnL_noSub m t hm h]
  rw [if_pos (show ([t] : List Text).length = 1 from rfl)]
  rw [show ([t] ++ [[]] : List Text).dropLast = [t] from rfl,
    show ([t] ++ [[]] : List Text).getLastD [] = [] from rfl,
    intercalate_single]

theorem mk0_pyNone (ext : ExtSvc) (tt : Text) (hh : List (Text × Text)) :
    Zettel.mk0 ext tt hh Value.pyNone = Except.ok
      ⟨tt, hh, [(txt "creation_date", Value.date ext.today),
        (txt "zlinks", Value.dict [])]⟩ := rfl

/-- C7: the decoder splits a document on the rightmost occurrence of the
attribute-block marker — for any text `a ++ marker ++ b` whose tail `b`
is free of the marker (so the explicit occurrence is the rightmost one,
however many occurrences `a` contains), the body handed to the
title/heading parser is exactly `a` and the structured-attributes blob is
exactly `b`; and when the marker is absent from a document, the parsed
attributes are empty, so the decoded zettel carries only the defaulted
`creation_date` and `zlinks`. -/
theorem c7_rightmost_marker :
    (∀ a b : Text, containsSub mdAttrHeader b = false →
      splitAttrHeader mdAttrHeader (a ++ (mdAttrHeader ++ b)) = (a, b)) ∧
    (∀ (ext : ExtSvc) (t : Text), containsSub mdAttrHeader (stripT t) = false →
      ∃ z, Zettel.createFromMd ext t = Except.ok z ∧
        z.attrs = [(txt "creation_date", Value.date ext.today),
          (txt "zlinks", Value.dict [])]) := by
  have hm : mdAttrHeader ≠ [] := by decide
  have hnb : noBorder mdAttrHeader := by
    unfold noBorder
    decide
  constructor
  · intro a b hb
    exact splitAttrHeader_marker mdAttrHeader hm hnb a b hb
  · intro ext t hsub
    by_cases ht : stripT t = []
    · simp only [Zettel.createFromMd]
      rw [ht]
      exact ⟨_, rfl, rfl⟩
    · simp only [Zettel.createFromMd]
      rw [if_neg ht, splitAttrHeader_noSub mdAttrHeader (stripT t) hm hsub]
      rw [show yamlLoad ext (stripT ([] : Text)) = Except.ok Value.pyNone from rfl]
      rw [exceptOk_bind, mk0_pyNone]
      exact ⟨_, rfl, rfl⟩

/-- Witness for C7 at a body containing one earlier marker occurrence and
a marker-free blob, plus a marker-free document. -/
theorem c7_rightmost_marker_witness :
    containsSub mdAttrHeader (txt "\n    greeting: hi") = false ∧
    splitAttrHeader mdAttrHeader
        (txt "body\n<!--- attributes --->\nmiddle\n" ++
          (mdAttrHeader ++ txt "\n    greeting: hi")) =
      (txt "body\n<!--- attributes --->\nmiddle\n", txt "\n    greeting: hi") ∧
    (∃ z, Zettel.createFromMd extC (txt "# hi\nbody") = Except.ok z ∧
      z.attrs = [(txt "creation_date", Value.date extC.today),
        (txt "zlinks", Value.dict [])]) :=
  ⟨by decide,
   c7_rightmost_marker.1 (txt "body\n<!--- attributes --->\nmiddle\n")
     (txt "\n    greeting: hi") (by decide),
   c7_rightmost_marker.2 extC (txt "# hi\nbody") (by decide)⟩

/-! ## Claim C5 -/

theorem mapM_eq_map_of_ok (f : Zettel → Except Err Text) (zs : List Zettel)
    (h : ∀ z ∈ zs, ∃ t, f z = Except.ok t) :
    zs.mapM f = Except.ok (zs.map (fun z => okText (f z))) := by
  induction zs with
  | nil => rfl
  | cons z zs ih =>
    obtain ⟨t, ht⟩ := h z (List.mem_cons_self _ _)
    rw [List.mapM_cons, ht, ih (fun w hw => h w (List.mem_cons_of_mem _ hw))]
    rw [List.map_cons]
    rw [show okText (f z) = t from by rw [ht]; rfl]
    rfl

theorem sortTexts_perm_eq (l₁ l₂ : List Text) (hp : l₁.Perm l₂) :
    sortTexts l₁ = sortTexts l₂ := by
  apply List.eq_of_perm_of_sorted
    (r := fun a b : Text => a ≤ b)
  · exact (List.perm_insertionSort _ l₁).trans
      (hp.trans (List.perm_insertionSort _ l₂).symm)
  · exact List.sorted_insertionSort _ l₁
  · exact List.sorted_insertionSort _ l₂

/-- C5: `zettels_to_str` encodes each zettel independently, drops empty
encodings, sorts the rendered texts lexicographically and joins them with
the dialect sentinel surrounded by blank lines; consequently, whenever
every zettel encodes successfully, packing any permutation of the same
zettels — in particular `[B, A]` versus `[A, B]` — yields identical
output for every format argument. -/
theorem c5_pack_determinism (ext : ExtSvc) (zettel_format : Text)
    (headings : List Text) (zs₁ zs₂ : List Zettel) (hperm : zs₁.Perm zs₂)
    (hok : ∀ z ∈ zs₁, (∃ t, Zettel.getMd ext z headings = Except.ok t) ∧
      (∃ t, Zettel.getRst ext z headings = Except.ok t)) :
    zettels_to_str ext zs₁ zettel_format headings =
      zettels_to_str ext zs₂ zettel_format headings := by
  have hok₂ : ∀ z ∈ zs₂, (∃ t, Zettel.getMd ext z headings = Except.ok t) ∧
      (∃ t, Zettel.getRst ext z headings = Except.ok t) :=
    fun z hz => hok z (hperm.mem_iff.mpr hz)
  simp only [zettels_to_str]
  by_cases hvalid : zettel_format ≠ txt "rst" ∧ zettel_format ≠ txt "md"
  · rw [if_pos hvalid, if_pos hvalid]
  · rw [if_neg hvalid, if_neg hvalid]
    by_cases hrst : zettel_format = txt "rst"
    · rw [if_pos hrst, if_pos hrst]
      rw [mapM_eq_map_of_ok (fun z => Zettel.getRst ext z headings) zs₁
          (fun z hz => (hok z hz).2),
        mapM_eq_map_of_ok (fun z => Zettel.getRst ext z headings) zs₂
          (fun z hz => (hok₂ z hz).2)]
      rw [exceptOk_bind, exceptOk_bind]
      congr 1
      apply congrArg
      apply sortTexts_perm_eq
      exact (hperm.map (fun z => okText (Zettel.getRst ext z headings))).filter _
    · rw [if_neg hrst, if_neg hrst]
      rw [mapM_eq_map_of_ok (fun z => Zettel.getMd ext z headings) zs₁
          (fun z hz => (hok z hz).1),
        mapM_eq_map_of_ok (fun z => Zettel.getMd ext z headings) zs₂
          (fun z hz => (hok₂ z hz).1)]
      rw [exceptOk_bind, exceptOk_bind]
      congr 1
      apply congrArg
      apply sortTexts_perm_eq
      exact (hperm.map (fun z => okText (Zettel.getMd ext z headings))).filter _

/-- Witness for C5: packing `[B, A]` and `[A, B]` for two zettels with
different titles (hence different rendered texts) yields identical
output. -/
theorem c5_pack_determinism_witness :
    zettels_to_str extC [zUpperNotes, zDouble] (txt "md") [txt "x"] =
      zettels_to_str extC [zDouble, zUpperNotes] (txt "md") [txt "x"] :=
  c5_pack_determinism extC (txt "md") [txt "x"] [zUpperNotes, zDouble]
    [zDouble, zUpperNotes] (List.Perm.swap zDouble zUpperNotes [])
    (by
      intro z hz
      rcases List.mem_cons.mp hz with rfl | hz2
      · exact ⟨⟨_, rfl⟩, ⟨_, rfl⟩⟩
      · rcases List.mem_singleton.mp hz2 with rfl
        exact ⟨⟨_, rfl⟩, ⟨_, rfl⟩⟩)

/-! ## Claim C1 -/

theorem collectMd_nil (lines : List Text) : collectMd lines [] = [] := rfl

theorem collectRst_nil (lines : List Text) : collectRst lines [] = [] := rfl

